import Mathlib

/-!
Verification of the claudian tool-call mediation core.

The first part embeds the path utilities of `utils.ts` (`resolveRealPath`,
`isPathWithinVault`, `isPathInAllowedExportPaths`).  Node's POSIX `path`
module is modelled over `String`/`List Char`: `path.sep` is `'/'`,
`path.resolve`/`path.normalize` are segment normalization, and the ambient
filesystem (`fs.realpathSync`, `fs.existsSync`) is a parameter `FS`.
A `realpathSync` result of `none` models the call throwing.
Trailing-separator preservation of Node's `normalize` is not modelled
(no call site below produces a trailing separator).
-/

namespace Claudian

/-- Model of JS `String.prototype.startsWith` (a string prefix test). -/
def strStartsWith (s pre : String) : Bool :=
  pre.data.isPrefixOf s.data

/-- Model of JS `String.prototype.slice(n)` for a nonnegative index. -/
def strDrop (s : String) (n : Nat) : String :=
  String.mk (s.data.drop n)

/-- Containment of `needle` in `hay` as contiguous sublist (JS `includes`). -/
def listContains (hay needle : List Char) : Bool :=
  match hay with
  | [] => needle.isPrefixOf []
  | _ :: t => needle.isPrefixOf hay || listContains t needle

/-- Model of JS `String.prototype.includes` (case-sensitive substring test). -/
def strContains (s sub : String) : Bool :=
  listContains s.data sub.data

/-- Splits a character list at `'/'`; `cur` is the current segment reversed. -/
def splitOnSlashAux : List Char → List Char → List String
  | [], cur => [String.mk cur.reverse]
  | c :: cs, cur =>
      if c = '/' then String.mk cur.reverse :: splitOnSlashAux cs []
      else splitOnSlashAux cs (c :: cur)

/-- The nonempty `'/'`-separated segments of a path string. -/
def splitSegs (s : String) : List String :=
  (splitOnSlashAux s.data []).filter (fun seg => seg ≠ "")

/-- Characters of an absolute rendering: `'/'` before each segment. -/
def flatChars (segs : List String) : List Char :=
  segs.flatMap (fun s => '/' :: s.data)

/-- Renders segments as an absolute POSIX path (`[]` is the root `"/"`). -/
def renderAbs (segs : List String) : String :=
  if segs = [] then "/" else String.mk (flatChars segs)

/-- One step of absolute-path normalization: `"."` is dropped, `".."` pops
the accumulator (and is dropped at the root), others are appended. -/
def normStepAbs (acc : List String) (seg : String) : List String :=
  if seg = "." then acc
  else if seg = ".." then acc.dropLast
  else acc ++ [seg]

/-- Absolute-path segment normalization (semantics of `path.resolve`). -/
def normAbs (segs : List String) : List String :=
  segs.foldl normStepAbs []

/-- One step of relative normalization: leading `".."` segments are kept
(semantics of `path.normalize` on a relative path). -/
def normStepRel (acc : List String) (seg : String) : List String :=
  if seg = "." then acc
  else if seg = ".." then
    match acc.getLast? with
    | some t => if t = ".." then acc ++ [".."] else acc.dropLast
    | none => [".."]
  else acc ++ [seg]

/-- Model of POSIX `path.normalize` (without trailing-separator handling). -/
def normalizeStr (p : String) : String :=
  if p = "" then "." else
  if strStartsWith p "/" then renderAbs (normAbs (splitSegs p))
  else
    let segs := (splitSegs p).foldl normStepRel []
    if segs.isEmpty then "." else String.intercalate "/" segs

/-- Model of POSIX `path.resolve(p)` with process working directory `cwd`
(assumed absolute). -/
def resolveStr (cwd p : String) : String :=
  if strStartsWith p "/" then renderAbs (normAbs (splitSegs p))
  else renderAbs (normAbs (splitSegs cwd ++ splitSegs p))

/-- Model of POSIX `path.resolve(a, p)` with process working directory
`cwd` (assumed absolute). -/
def resolve2Str (cwd a p : String) : String :=
  if strStartsWith p "/" then renderAbs (normAbs (splitSegs p))
  else if strStartsWith a "/" then renderAbs (normAbs (splitSegs a ++ splitSegs p))
  else renderAbs (normAbs (splitSegs cwd ++ splitSegs a ++ splitSegs p))

/-- Model of POSIX `path.join(a, b)` (empty parts ignored, then
normalization). -/
def pathJoin2 (a b : String) : String :=
  if a = "" then (if b = "" then "." else normalizeStr b)
  else if b = "" then normalizeStr a
  else normalizeStr (a ++ "/" ++ b)

/-- Model of `suffix.length > 0 ? path.join(resolvedExisting, ...suffix.reverse()) : resolvedExisting`
in `resolveRealPath` (the parts are plain segments, already in original order here). -/
def joinSuffix (resolvedExisting : String) (parts : List String) : String :=
  if parts.isEmpty then resolvedExisting
  else normalizeStr (resolvedExisting ++ "/" ++ String.intercalate "/" parts)

/-- The ambient filesystem: `realpathSync p = none` models the call
throwing, `existsSync` is total (its rare throw is absorbed by the same
`catch` and behaves like `none` here). -/
structure FS where
  realpathSync : String → Option String
  existsSync : String → Bool

/-- A filesystem on which every path is non-existent: `realpathSync`
always throws and `existsSync` is always false, so resolution is pure
path normalization (no symlinks). -/
def plainFS : FS :=
  { realpathSync := fun _ => none, existsSync := fun _ => false }

/-- The body of the `try` inside the walk-up loop of `resolveRealPath`:
the candidate ancestor is used only if `existsSync` holds and
`realpathSync` succeeds; any throw is caught and walking continues. -/
def tryAncestor (fs : FS) (current : String) : Option String :=
  if fs.existsSync current then fs.realpathSync current else none

/-- The walk-up loop of `resolveRealPath` over the reversed segment list
of the (normalized, absolute) starting path.  The head of `rev` is the
basename of the current path; `suffix` accumulates popped basenames in
the order they were pushed (the source pushes then reverses on exit).
The `[]` case is `current = "/"`, where `path.dirname` is a fixed point
and the source returns `absolute`. -/
def walkUp (fs : FS) (absolute : String) : List String → List String → String
  | [], suffix =>
      match tryAncestor fs "/" with
      | some r => joinSuffix r suffix.reverse
      | none => absolute
  | s :: rest, suffix =>
      match tryAncestor fs (renderAbs (s :: rest).reverse) with
      | some r => joinSuffix r suffix.reverse
      | none => walkUp fs absolute rest (suffix ++ [s])

/-- Embedding of `resolveRealPath` from `utils.ts`: best-effort realpath
that falls back to canonicalizing the nearest existing ancestor and
re-appending the missing suffix, and to `path.resolve(p)` if no ancestor
exists. -/
def resolveRealPath (fs : FS) (cwd : String) (p : String) : String :=
  match fs.realpathSync p with
  | some r => r
  | none =>
      let absolute := resolveStr cwd p
      walkUp fs absolute (splitSegs absolute).reverse []

/-- The `~/` home-expansion step shared by `isPathWithinVault` and
`isPathInAllowedExportPaths`: `path.join(os.homedir(), p.slice(2))` when
`p` starts with the two characters `~/`, otherwise `p` unchanged. -/
def expandTilde (home p : String) : String :=
  if strStartsWith p "~/" then pathJoin2 home (strDrop p 2) else p

/-- The candidate absolutization step of both containment checks:
an absolute expanded candidate is kept as-is, a relative one is resolved
against the vault path (`path.resolve(vaultPath, expandedPath)`). -/
def candidateAbs (cwd vaultPath home p : String) : String :=
  let expanded := expandTilde home p
  if strStartsWith expanded "/" then expanded
  else resolve2Str cwd vaultPath expanded

/-- The full canonicalization pipeline applied to a candidate path by
both containment checks: tilde expansion, absolutization against the
vault, then `resolveRealPath`. -/
def candidateCanonical (fs : FS) (cwd home vaultPath p : String) : String :=
  resolveRealPath fs cwd (candidateAbs cwd vaultPath home p)

/-- Embedding of `isPathWithinVault` from `utils.ts`. -/
def isPathWithinVault (fs : FS) (cwd home : String)
    (candidatePath vaultPath : String) : Bool :=
  let vaultReal := resolveRealPath fs cwd vaultPath
  let resolvedCandidate := candidateCanonical fs cwd home vaultPath candidatePath
  resolvedCandidate == vaultReal || strStartsWith resolvedCandidate (vaultReal ++ "/")

/-- Embedding of `isPathInAllowedExportPaths` from `utils.ts` (the `for`
loop with early return is `List.any`). -/
def isPathInAllowedExportPaths (fs : FS) (cwd home : String)
    (candidatePath : String) (allowedExportPaths : List String)
    (vaultPath : String) : Bool :=
  if allowedExportPaths.isEmpty then false
  else
    let resolvedCandidate := candidateCanonical fs cwd home vaultPath candidatePath
    allowedExportPaths.any fun exportPath =>
      let resolvedExport := resolveRealPath fs cwd (expandTilde home exportPath)
      resolvedCandidate == resolvedExport ||
        strStartsWith resolvedCandidate (resolvedExport ++ "/")

/-- Segment lists that render unambiguously: every segment is nonempty
and contains no separator. -/
abbrev goodSegs (l : List String) : Prop :=
  ∀ s ∈ l, s ≠ "" ∧ '/' ∉ s.data

/-!
Blocklist matching.  Modelled from the spec: the repository's
`ClaudianService.shouldBlockCommand` and its per-pattern matching are not
under `src/` (only their tests are), so §4.4 of the spec is embedded: each
pattern is compiled as a regular expression and matched against the
command, and on compilation failure the check falls back to
case-sensitive substring containment; the first matching pattern wins.
The regular-expression dialect is restricted to the constructs the spec
and tests exercise: literal characters, `\s`, other escaped characters as
literals, `.`, non-negated character classes, and the `+`/`*`
quantifiers.  A class without a closing `]`, a dangling `\`, and a
quantifier without a preceding atom are compilation failures.
-/

/-- A regular-expression atom of the modelled dialect. -/
inductive RAtom where
  | lit (c : Char)
  | space
  | anyc
  | cls (cs : List Char)
deriving DecidableEq

/-- A quantifier on an atom. -/
inductive RQuant where
  | one
  | plus
  | star
deriving DecidableEq

/-- A compiled pattern is a sequence of quantified atoms. -/
abbrev RItem := RAtom × RQuant

/-- Reads an optional postfix quantifier. -/
def quantOf : List Char → RQuant × List Char
  | '+' :: r => (.plus, r)
  | '*' :: r => (.star, r)
  | r => (.one, r)

/-- The atom denoted by an escaped character (`\s` is whitespace, any
other escaped character stands for itself). -/
def escAtom (c : Char) : RAtom :=
  if c = 's' then .space else .lit c

/-- Reads the body of a character class up to the closing `]`; `none` on
an unterminated class (the compilation failure of `"[invalid regex"`). -/
def parseClassChars : List Char → Option (List Char × List Char)
  | [] => none
  | ']' :: r => some ([], r)
  | '\\' :: c :: r => (parseClassChars r).map (fun p => (c :: p.1, p.2))
  | ['\\'] => none
  | c :: r => (parseClassChars r).map (fun p => (c :: p.1, p.2))

/-- Fueled pattern parser (the fuel is at least the input length plus
one at every call, so it never runs out). -/
def parseRxFuel : Nat → List Char → Option (List RItem)
  | 0, _ => none
  | _ + 1, [] => some []
  | _ + 1, '+' :: _ => none
  | _ + 1, '*' :: _ => none
  | fuel + 1, '\\' :: rest =>
      match rest with
      | [] => none
      | c :: r =>
          let q := quantOf r
          (parseRxFuel fuel q.2).map (fun items => (escAtom c, q.1) :: items)
  | fuel + 1, '[' :: rest =>
      match parseClassChars rest with
      | none => none
      | some (cs, r) =>
          let q := quantOf r
          (parseRxFuel fuel q.2).map (fun items => (RAtom.cls cs, q.1) :: items)
  | fuel + 1, '.' :: rest =>
      let q := quantOf rest
      (parseRxFuel fuel q.2).map (fun items => (RAtom.anyc, q.1) :: items)
  | fuel + 1, c :: rest =>
      let q := quantOf rest
      (parseRxFuel fuel q.2).map (fun items => (RAtom.lit c, q.1) :: items)

/-- Compiles a pattern string; `none` models `new RegExp(pattern)`
throwing a syntax error. -/
def compileRegex (pattern : String) : Option (List RItem) :=
  parseRxFuel (pattern.data.length + 1) pattern.data

/-- Whether an atom matches one character. -/
def atomMatch : RAtom → Char → Bool
  | .lit c, d => c = d
  | .space, d => d = ' ' || d = '\t' || d = '\n' || d = '\r'
  | .anyc, d => d ≠ '\n'
  | .cls cs, d => cs.contains d

/-- Fueled matcher step: whether the item sequence matches a prefix of
the input (with backtracking for the quantifiers).  Every recursive call
strictly decreases the sum of input length and item count, so fuel at
least that sum plus one never runs out. -/
def matchSeqFuel : Nat → List RItem → List Char → Bool
  | 0, _, _ => false
  | _ + 1, [], _ => true
  | _ + 1, (_, .one) :: _, [] => false
  | f + 1, (a, .one) :: rest, c :: s => atomMatch a c && matchSeqFuel f rest s
  | _ + 1, (_, .plus) :: _, [] => false
  | f + 1, (a, .plus) :: rest, c :: s =>
      atomMatch a c &&
        (matchSeqFuel f rest s || matchSeqFuel f ((a, .star) :: rest) s)
  | f + 1, (a, .star) :: rest, s =>
      matchSeqFuel f rest s ||
        (match s with
         | [] => false
         | c :: t => atomMatch a c && matchSeqFuel f ((a, .star) :: rest) t)

/-- Whether the item sequence matches a prefix of `s`. -/
def matchSeq (items : List RItem) (s : List Char) : Bool :=
  matchSeqFuel (s.length + items.length + 1) items s

/-- Whether the compiled pattern matches anywhere in `s`
(JS `RegExp.prototype.test`). -/
def regexTest (items : List RItem) : List Char → Bool
  | [] => matchSeq items []
  | c :: s => matchSeq items (c :: s) || regexTest items s

/-- Modelled from the spec (§4.4): one blocklist pattern against one
command — regex match when the pattern compiles, case-sensitive
substring containment when it does not. -/
def matchesBlockPattern (pattern command : String) : Bool :=
  match compileRegex pattern with
  | some items => regexTest items command.data
  | none => strContains command pattern

/-- Modelled from the spec (§4.4): first matching pattern, for
diagnostics. -/
def findBlockedPattern (patterns : List String) (command : String) : Option String :=
  patterns.find? (fun p => matchesBlockPattern p command)

/-!
Approval store.  Modelled from the spec (§4.5, `ApprovedAction` in §3):
`ClaudianService.approveAction` / `isActionApproved` / `resetSession` are
not under `src/` (only their tests are).  Inputs are modelled as a sum of
the shapes the pattern extraction distinguishes; file-path approvals use
prefix matching, shell-command and search-pattern approvals exact
matching.
-/

/-- The scope of an approval grant. -/
inductive ApprovalScope where
  | session
  | always
deriving DecidableEq

/-- A recorded approval grant. -/
structure ApprovedAction where
  toolName : String
  pattern : String
  scope : ApprovalScope
deriving DecidableEq

/-- The tool-input shapes the pattern extraction distinguishes. -/
inductive ToolInput where
  | bash (command : String)
  | file (filePath : String)
  | search (pattern : String)
  | other (raw : String)
deriving DecidableEq

/-- Modelled from the spec: `getActionPattern` — the canonical pattern of
an action (exact command string for shell tools, target path for file
tools, pattern string for search tools). -/
def getActionPattern : ToolInput → String
  | .bash c => c
  | .file p => p
  | .search p => p
  | .other r => r

/-- The tools whose approvals are path approvals. -/
def isFilePathTool (toolName : String) : Bool :=
  toolName = "Read" || toolName = "Write" || toolName = "Edit" ||
    toolName = "NotebookEdit"

/-- Modelled from the spec: file-path approvals match by prefix, others
exactly. -/
def approvalPatternMatches (toolName stored current : String) : Bool :=
  if isFilePathTool toolName then strStartsWith current stored
  else stored == current

/-- The approval store: the session list (cleared on reset) and the
permanent list (persisted settings). -/
structure ApprovalStore where
  sessionApprovedActions : List ApprovedAction
  permanentApprovedActions : List ApprovedAction
deriving DecidableEq

/-- The store of a fresh service. -/
def emptyApprovalStore : ApprovalStore :=
  { sessionApprovedActions := [], permanentApprovedActions := [] }

/-- Modelled from the spec: `approveAction` appends to the session or
the permanent list according to scope. -/
def approveAction (st : ApprovalStore) (toolName : String) (input : ToolInput)
    (scope : ApprovalScope) : ApprovalStore :=
  let a : ApprovedAction :=
    { toolName := toolName, pattern := getActionPattern input, scope := scope }
  match scope with
  | .session => { st with sessionApprovedActions := st.sessionApprovedActions ++ [a] }
  | .always => { st with permanentApprovedActions := st.permanentApprovedActions ++ [a] }

/-- Modelled from the spec: `isActionApproved` checks the union of both
lists. -/
def isActionApproved (st : ApprovalStore) (toolName : String)
    (input : ToolInput) : Bool :=
  (st.sessionApprovedActions ++ st.permanentApprovedActions).any fun a =>
    a.toolName == toolName &&
      approvalPatternMatches toolName a.pattern (getActionPattern input)

/-- Modelled from the spec: `resetSession` empties the session list only. -/
def resetApprovalSession (st : ApprovalStore) : ApprovalStore :=
  { st with sessionApprovedActions := [] }

/-!
Bash path extraction and the mediator's path policy.  Modelled from the
spec (§4.3, §4.6 step 2): `ClaudianService.extractPathCandidates` and the
vault-restriction hook are not under `src/` (only their tests are).
Tokenization respects quotes and backslash escapes and is best-effort;
redirection operators and `;`/`&&`/`||`/`|` are their own tokens; a token
after `>`/`>>`/`-o`/`--output` is Write-intent, after `<` Read-intent;
any other path-like token is Ambiguous and treated conservatively as
Read-intent, except that the last path-like positional argument of
`cp`/`mv` is Write-intent.  Policy per token: a Read-intent token must be
in the vault (an export root is write-only), a Write-intent token must be
in the vault or an export root; the first violation blocks the call.
-/

/-- The single-quote character (codepoint 39). -/
def quoteChar : Char := Char.ofNat 39

/-- Closes the current (reversed) token accumulator. -/
def closeTok (cur : List Char) : List String :=
  if cur.isEmpty then [] else [String.mk cur.reverse]

/-- Modelled from the spec (§4.3 steps 1 and 4): quote- and escape-aware
tokenizer; the second argument is the open quote, the third the current
token reversed.  Quotes are stripped; an unterminated quote closes at the
end of input (best-effort). -/
def bashTokens : List Char → Option Char → List Char → List String
  | [], _, cur => closeTok cur
  | c :: cs, some q, cur =>
      if c = q then bashTokens cs none cur else bashTokens cs (some q) (c :: cur)
  | '"' :: cs, none, cur => bashTokens cs (some '"') cur
  | '\\' :: c :: cs, none, cur => bashTokens cs none (c :: cur)
  | ['\\'], none, cur => closeTok cur
  | ' ' :: cs, none, cur => closeTok cur ++ bashTokens cs none []
  | '\t' :: cs, none, cur => closeTok cur ++ bashTokens cs none []
  | '>' :: '>' :: cs, none, cur => closeTok cur ++ [">>"] ++ bashTokens cs none []
  | '>' :: cs, none, cur => closeTok cur ++ [">"] ++ bashTokens cs none []
  | '<' :: cs, none, cur => closeTok cur ++ ["<"] ++ bashTokens cs none []
  | '&' :: '&' :: cs, none, cur => closeTok cur ++ ["&&"] ++ bashTokens cs none []
  | '&' :: cs, none, cur => closeTok cur ++ ["&"] ++ bashTokens cs none []
  | '|' :: '|' :: cs, none, cur => closeTok cur ++ ["||"] ++ bashTokens cs none []
  | '|' :: cs, none, cur => closeTok cur ++ ["|"] ++ bashTokens cs none []
  | ';' :: cs, none, cur => closeTok cur ++ [";"] ++ bashTokens cs none []
  | c :: cs, none, cur =>
      if c = quoteChar then bashTokens cs (some quoteChar) cur
      else bashTokens cs none (c :: cur)

/-- Modelled from the spec (§4.3 step 2): splits the token stream into
segments at `;`, `&&`, `||`, `|`. -/
def splitSegmentsAux : List String → List String → List (List String)
  | [], cur => [cur.reverse]
  | t :: ts, cur =>
      if t = ";" || t = "&&" || t = "||" || t = "|" then
        cur.reverse :: splitSegmentsAux ts []
      else splitSegmentsAux ts (t :: cur)

/-- The pipeline segments of a token stream. -/
def splitSegments (toks : List String) : List (List String) :=
  splitSegmentsAux toks []

/-- The read/write intent of an extracted path token. -/
inductive Intent where
  | read
  | write
deriving DecidableEq

/-- Modelled from the spec (§4.3 step 3): whether a token is
syntactically path-like (contains `/`, starts with `.` or `~`, or looks
like a filename with an extension and is not a flag). -/
def pathLike (t : String) : Bool :=
  t.data.contains '/' || strStartsWith t "." || strStartsWith t "~" ||
    (t.data.contains '.' && !strStartsWith t "-")

/-- Modelled from the spec (§4.3 step 3): classifies the arguments of one
segment.  The `Option Intent` is the pending intent forced by the
preceding redirection operator or output flag; the `Bool` marks
positional (non-redirection) path tokens for the copy/move heuristic. -/
def classifyArgs : List String → Option Intent → List (String × Intent × Bool)
  | [], _ => []
  | t :: ts, some i => (t, i, false) :: classifyArgs ts none
  | t :: ts, none =>
      if t = ">" || t = ">>" || t = "-o" || t = "--output" then
        classifyArgs ts (some .write)
      else if t = "<" then classifyArgs ts (some .read)
      else if pathLike t then (t, .read, true) :: classifyArgs ts none
      else classifyArgs ts none

/-- Marks the last positional token Write-intent (copy/move heuristic);
operates on the reversed classified list. -/
def markFirstPositionalWrite : List (String × Intent × Bool) →
    List (String × Intent × Bool)
  | [] => []
  | (t, _, true) :: rest => (t, .write, true) :: rest
  | e :: rest => e :: markFirstPositionalWrite rest

/-- Modelled from the spec (§4.3 step 3): for `cp`/`mv`, the last
positional argument is Write-intent and earlier ones Read-intent. -/
def applyCopyHeuristic (cmd : String) (l : List (String × Intent × Bool)) :
    List (String × Intent × Bool) :=
  if cmd = "cp" || cmd = "mv" then (markFirstPositionalWrite l.reverse).reverse
  else l

/-- The classified path tokens of one segment (the first token is the
command name and is not an operand). -/
def extractSegTokens (seg : List String) : List (String × Intent) :=
  match seg with
  | [] => []
  | cmd :: args =>
      (applyCopyHeuristic cmd (classifyArgs args none)).map
        (fun e => (e.1, e.2.1))

/-- Modelled from the spec (§4.3): every path-like operand of a Bash
command line, with its intent, in order. -/
def extractPathTokens (command : String) : List (String × Intent) :=
  (splitSegments (bashTokens command.data none [])).flatMap extractSegTokens

/-- The sandbox configuration a mediation session is constructed with. -/
structure SandboxCtx where
  fs : FS
  cwd : String
  home : String
  vaultPath : String
  exportPaths : List String

/-- The diagnostic for a read of a write-only export root. -/
def writeOnlyMsg (tok : String) : String :=
  "Blocked: export paths are write-only, cannot read " ++ tok

/-- The diagnostic for a path outside every allowed root. -/
def outsideVaultMsg (tok : String) : String :=
  "Blocked: path is outside the vault: " ++ tok

/-- Modelled from the spec (§4.3 contract): the violation, if any, of one
classified token.  Read-intent must be in the vault (export roots are
write-only); Write-intent must be in the vault or an export root. -/
def checkToken (ctx : SandboxCtx) (tok : String × Intent) : Option String :=
  let inVault := isPathWithinVault ctx.fs ctx.cwd ctx.home tok.1 ctx.vaultPath
  let inExport := isPathInAllowedExportPaths ctx.fs ctx.cwd ctx.home tok.1
    ctx.exportPaths ctx.vaultPath
  match tok.2 with
  | .read =>
      if inVault then none
      else if inExport then some (writeOnlyMsg tok.1)
      else some (outsideVaultMsg tok.1)
  | .write =>
      if inVault || inExport then none
      else some (outsideVaultMsg tok.1)

/-- The first violation among the classified tokens. -/
def firstViolation (ctx : SandboxCtx) : List (String × Intent) → Option String
  | [] => none
  | t :: ts =>
      match checkToken ctx t with
      | some m => some m
      | none => firstViolation ctx ts

/-- Modelled from the spec (§4.6 step 2 for Bash): the mediator's path
verdict on a Bash command — `some msg` is a terminal Blocked with that
diagnostic, `none` lets mediation continue. -/
def mediateBashPaths (ctx : SandboxCtx) (command : String) : Option String :=
  firstViolation ctx (extractPathTokens command)

/-!
Session continuity.  Modelled from the spec (§4.8):
`ClaudianService.query`'s expiry recovery, `isSessionExpiredError`,
`buildContextFromHistory` and `truncateToolResultForContext` are not
under `src/` (only their tests are).  The underlying agent runtime is a
parameter mapping a prompt and an optional resume token to an outcome.
-/

/-- ASCII lower-casing of one character (JS `toLowerCase` restricted to
ASCII, which is all the heuristics need). -/
def lowerChar (c : Char) : Char :=
  if c.toNat ≥ 65 && c.toNat ≤ 90 then Char.ofNat (c.toNat + 32) else c

/-- ASCII lower-casing of a string. -/
def lowerStr (s : String) : String :=
  String.mk (s.data.map lowerChar)

/-- Modelled from the spec (§4.8): the session-expiry heuristics —
case-insensitive containment of the four marker phrases. -/
def isSessionExpiredError (msg : String) : Bool :=
  let m := lowerStr msg
  strContains m "session expired" || strContains m "session not found" ||
    strContains m "invalid session" || strContains m "resume failed"

/-- The role of a stored chat message. -/
inductive Role where
  | user
  | assistant
  | system
deriving DecidableEq

/-- A recorded tool call inside an assistant message. -/
structure ToolCallInfo where
  name : String
  status : String
  result : Option String
deriving DecidableEq

/-- A stored conversation message. -/
structure ChatMessage where
  role : Role
  content : String
  toolCalls : List ToolCallInfo
  contextFiles : List String
deriving DecidableEq

/-- Modelled from the spec (§4.8): caps a tool result at the character
budget, marking the excerpt `(truncated)`. -/
def truncateToolResultForContext (s : String) (maxLen : Nat) : String :=
  if s.data.length ≤ maxLen then s
  else String.mk (s.data.take maxLen) ++ "... (truncated)"

/-- Modelled from the spec (§4.8): the one-line summary of a prior tool
call. -/
def formatToolCallForContext (budget : Nat) (t : ToolCallInfo) : String :=
  let base := "[Tool " ++ t.name ++ " status=" ++ t.status ++ "]"
  match t.result with
  | none => base
  | some r => base ++ " " ++ truncateToolResultForContext r budget

/-- Modelled from the spec (§4.8) and the tests: the transcript lines of
one message — `User:` lines (with a `Context files:` line when files are
attached), `Assistant:` lines for nonempty assistant content plus one
line per tool call; system messages are skipped. -/
def messageLines (budget : Nat) (m : ChatMessage) : List String :=
  match m.role with
  | .system => []
  | .user =>
      ("User: " ++ m.content) ::
        (if m.contextFiles.isEmpty then []
         else ["Context files: [" ++ String.intercalate ", " m.contextFiles ++ "]"])
  | .assistant =>
      (if m.content = "" then [] else ["Assistant: " ++ m.content]) ++
        m.toolCalls.map (formatToolCallForContext budget)

/-- All transcript lines of a history. -/
def contextLines (budget : Nat) (history : List ChatMessage) : List String :=
  history.flatMap (messageLines budget)

/-- Modelled from the spec (§4.8): the newline-joined reconstructed
context used as the retry prompt. -/
def buildContextFromHistory (budget : Nat) (history : List ChatMessage) : String :=
  String.intercalate "\n" (contextLines budget history)

/-- The outcome of one underlying agent-runtime call. -/
inductive SDKOutcome where
  | ok (chunks : List String)
  | err (message : String)
deriving DecidableEq

/-- The observable record of one top-level query: the underlying calls
made (prompt and resume token, in order), the session handle afterwards,
and the terminal outcome. -/
structure QueryRun where
  calls : List (String × Option String)
  finalSessionId : Option String
  outcome : SDKOutcome
deriving DecidableEq

/-- Modelled from the spec (§4.8): one top-level query with expiry
recovery.  A failure matching the expiry heuristics clears the session
handle and retries exactly once, without a resume token and with the
rebuilt context as prompt; a second failure (or a non-expiry failure) is
terminal. -/
def runQueryWithRecovery (sdk : String → Option String → SDKOutcome)
    (sessionId : Option String) (prompt : String)
    (history : List ChatMessage) (budget : Nat) : QueryRun :=
  match sdk prompt sessionId with
  | .ok cs => { calls := [(prompt, sessionId)], finalSessionId := sessionId,
                outcome := .ok cs }
  | .err msg =>
      if isSessionExpiredError msg then
        let rebuilt := buildContextFromHistory budget history
        match sdk rebuilt none with
        | .ok cs => { calls := [(prompt, sessionId), (rebuilt, none)],
                      finalSessionId := none, outcome := .ok cs }
        | .err m2 => { calls := [(prompt, sessionId), (rebuilt, none)],
                       finalSessionId := none, outcome := .err m2 }
      else { calls := [(prompt, sessionId)], finalSessionId := sessionId,
             outcome := .err msg }

/-!
Concrete fixtures used by the witnesses below.
-/

/-- A mediation context with vault `/vault` and `/tmp` as the only
export root, on the symlink-free filesystem. -/
def cpCtx : SandboxCtx :=
  { fs := plainFS, cwd := "/", home := "/home/user",
    vaultPath := "/vault", exportPaths := ["/tmp"] }

/-- A filesystem where only `/a` exists and canonicalizes (through a
symlink) to `/x`. -/
def fsB : FS :=
  { realpathSync := fun s => if s = "/a" then some "/x" else none,
    existsSync := fun s => s == "/a" }

/-- An agent runtime that fails any resumed call with a session-expired
error and answers a fresh call. -/
def sdkExpiredOnResume : String → Option String → SDKOutcome :=
  fun _ resume =>
    match resume with
    | some _ => .err "Session expired"
    | none => .ok ["Recovered"]

/-- A three-turn conversation history. -/
def historyW : List ChatMessage :=
  [{ role := .user, content := "First question", toolCalls := [],
     contextFiles := [] },
   { role := .assistant, content := "Answer",
     toolCalls := [{ name := "Read", status := "completed",
                     result := some "file content" }],
     contextFiles := [] },
   { role := .user, content := "Follow up", toolCalls := [],
     contextFiles := ["note.md"] }]

/-!
Lemmas about separator-bounded renderings of segment lists.
-/

theorem flatChars_cons (s : String) (l : List String) :
    flatChars (s :: l) = '/' :: (s.data ++ flatChars l) := by
  simp [flatChars]

theorem flatChars_shape (l : List String) :
    flatChars l = [] ∨ ∃ t, flatChars l = '/' :: t := by
  cases l with
  | nil => exact Or.inl rfl
  | cons s t => exact Or.inr ⟨s.data ++ flatChars t, flatChars_cons s t⟩

theorem flatChars_slash_shape (l : List String) :
    ∃ t, flatChars l ++ ['/'] = '/' :: t := by
  cases l with
  | nil => exact ⟨[], rfl⟩
  | cons s t =>
      exact ⟨s.data ++ flatChars t ++ ['/'], by
        rw [flatChars_cons]; simp⟩

theorem append_prefix_core (u : List Char) :
    ∀ (v xs ys : List Char), (∀ c ∈ u, c ≠ '/') → (∀ c ∈ v, c ≠ '/') →
      (∃ t, xs = '/' :: t) → (ys = [] ∨ ∃ t, ys = '/' :: t) →
      ((u ++ xs <+: v ++ ys) ↔ (u = v ∧ xs <+: ys)) := by
  induction u with
  | nil =>
      intro v xs ys _ hv hxs _
      cases v with
      | nil => simp
      | cons b v2 =>
          simp only [List.nil_append, List.cons_append]
          constructor
          · intro h
            obtain ⟨t, rfl⟩ := hxs
            have hb := (List.cons_prefix_cons.mp h).1
            exact absurd hb.symm (hv b (List.mem_cons_self b v2))
          · rintro ⟨h1, _⟩
            exact absurd h1 (by simp)
  | cons a u2 ih =>
      intro v xs ys hu hv hxs hys
      cases v with
      | nil =>
          simp only [List.cons_append, List.nil_append]
          constructor
          · intro h
            rcases hys with rfl | ⟨t, rfl⟩
            · simp at h
            · have ha := (List.cons_prefix_cons.mp h).1
              exact absurd ha (hu a (List.mem_cons_self a u2))
          · rintro ⟨h1, _⟩
            exact absurd h1 (by simp)
      | cons b v2 =>
          simp only [List.cons_append, List.cons_prefix_cons]
          rw [ih v2 xs ys (fun c hc => hu c (List.mem_cons_of_mem a hc))
            (fun c hc => hv c (List.mem_cons_of_mem b hc)) hxs hys]
          simp only [List.cons.injEq]
          tauto

theorem append_eq_core (u : List Char) :
    ∀ (v xs ys : List Char), (∀ c ∈ u, c ≠ '/') → (∀ c ∈ v, c ≠ '/') →
      (xs = [] ∨ ∃ t, xs = '/' :: t) → (ys = [] ∨ ∃ t, ys = '/' :: t) →
      ((u ++ xs = v ++ ys) ↔ (u = v ∧ xs = ys)) := by
  induction u with
  | nil =>
      intro v xs ys _ hv hxs _
      cases v with
      | nil => simp
      | cons b v2 =>
          simp only [List.nil_append, List.cons_append]
          constructor
          · intro h
            rcases hxs with rfl | ⟨t, rfl⟩
            · exact absurd h (by simp)
            · have hb : '/' = b := by
                have := congrArg List.head? h
                simpa using this
              exact absurd hb.symm (hv b (List.mem_cons_self b v2))
          · rintro ⟨h1, _⟩
            exact absurd h1 (by simp)
  | cons a u2 ih =>
      intro v xs ys hu hv hxs hys
      cases v with
      | nil =>
          simp only [List.cons_append, List.nil_append]
          constructor
          · intro h
            rcases hys with rfl | ⟨t, rfl⟩
            · exact absurd h.symm (by simp)
            · have ha : a = '/' := by
                have := congrArg List.head? h
                simpa using this
              exact absurd ha (hu a (List.mem_cons_self a u2))
          · rintro ⟨h1, _⟩
            exact absurd h1 (by simp)
      | cons b v2 =>
          simp only [List.cons_append, List.cons.injEq]
          rw [ih v2 xs ys (fun c hc => hu c (List.mem_cons_of_mem a hc))
            (fun c hc => hv c (List.mem_cons_of_mem b hc)) hxs hys]
          tauto

theorem noSlash_data_of_goodSegs {l : List String} (hl : goodSegs l) {s : String}
    (hs : s ∈ l) : ∀ c ∈ s.data, c ≠ '/' := by
  intro c hc he
  exact (hl s hs).2 (he ▸ hc)

theorem flat_prefix_strict (B : List String) :
    ∀ (A : List String), goodSegs B → goodSegs A →
      ((flatChars B ++ ['/'] <+: flatChars A) ↔ (B <+: A ∧ B ≠ A)) := by
  induction B with
  | nil =>
      intro A _ _
      cases A with
      | nil => simp [flatChars]
      | cons a A2 => simp [flatChars_cons, flatChars, List.cons_prefix_cons]
  | cons b B2 ih =>
      intro A hB hA
      cases A with
      | nil =>
          constructor
          · intro h
            exact absurd h (by simp [flatChars, flatChars_cons])
          · rintro ⟨h1, _⟩
            exact absurd h1 (by simp)
      | cons a A2 =>
          rw [flatChars_cons, flatChars_cons, List.cons_append,
            List.cons_prefix_cons, List.append_assoc,
            append_prefix_core b.data a.data _ _
              (noSlash_data_of_goodSegs hB (List.mem_cons_self b B2))
              (noSlash_data_of_goodSegs hA (List.mem_cons_self a A2))
              (flatChars_slash_shape B2) (flatChars_shape A2),
            ih A2 (fun s hs => hB s (List.mem_cons_of_mem b hs))
              (fun s hs => hA s (List.mem_cons_of_mem a hs))]
          constructor
          · rintro ⟨-, hba, hpre, hne⟩
            have hba2 : b = a := String.ext_iff.mpr hba
            subst hba2
            refine ⟨List.cons_prefix_cons.mpr ⟨rfl, hpre⟩, ?_⟩
            intro h
            exact hne (by simpa using h)
          · rintro ⟨hpre, hne⟩
            obtain ⟨hba, hpre2⟩ := List.cons_prefix_cons.mp hpre
            subst hba
            exact ⟨rfl, rfl, hpre2, fun h => hne (by rw [h])⟩

theorem flat_inj (A : List String) :
    ∀ (B : List String), goodSegs A → goodSegs B →
      ((flatChars A = flatChars B) ↔ A = B) := by
  induction A with
  | nil =>
      intro B _ hB
      cases B with
      | nil => simp
      | cons b B2 =>
          simp only [flatChars, List.flatMap_nil, flatChars_cons]
          constructor
          · intro h
            exact absurd h (by simp [flatChars_cons])
          · intro h
            exact absurd h (by simp)
  | cons a A2 ih =>
      intro B hA hB
      cases B with
      | nil =>
          constructor
          · intro h
            exact absurd h (by simp [flatChars, flatChars_cons])
          · intro h
            exact absurd h (by simp)
      | cons b B2 =>
          rw [flatChars_cons, flatChars_cons]
          simp only [List.cons.injEq, true_and]
          rw [append_eq_core a.data b.data _ _
              (noSlash_data_of_goodSegs hA (List.mem_cons_self a A2))
              (noSlash_data_of_goodSegs hB (List.mem_cons_self b B2))
              (flatChars_shape A2) (flatChars_shape B2),
            ih B2 (fun s hs => hA s (List.mem_cons_of_mem a hs))
              (fun s hs => hB s (List.mem_cons_of_mem b hs))]
          constructor
          · rintro ⟨h1, h2⟩
            exact ⟨String.ext_iff.mpr h1, h2⟩
          · rintro ⟨h1, h2⟩
            exact ⟨String.ext_iff.mp h1, h2⟩

theorem renderAbs_of_ne_nil {l : List String} (h : l ≠ []) :
    renderAbs l = String.mk (flatChars l) := by
  simp [renderAbs, h]

theorem renderAbs_eq_slash_iff {l : List String} (hl : goodSegs l) :
    renderAbs l = "/" ↔ l = [] := by
  cases l with
  | nil => simp [renderAbs]
  | cons b B2 =>
      rw [renderAbs_of_ne_nil (by simp)]
      constructor
      · intro h
        have hd : flatChars (b :: B2) = ['/'] := String.ext_iff.mp h
        rw [flatChars_cons] at hd
        have hb : b.data = [] := by
          have := (List.cons.injEq .. ▸ hd).2
          exact (List.append_eq_nil.mp this).1
        exact absurd (String.ext_iff.mpr hb) (hl b (List.mem_cons_self b B2)).1
      · intro h
        exact absurd h (by simp)

theorem renderAbs_inj {A B : List String} (hA : goodSegs A) (hB : goodSegs B) :
    renderAbs A = renderAbs B ↔ A = B := by
  have h0 : renderAbs ([] : List String) = "/" := by simp [renderAbs]
  by_cases hA0 : A = []
  · subst hA0
    rw [h0]
    constructor
    · intro h
      exact ((renderAbs_eq_slash_iff hB).mp h.symm).symm
    · intro h
      rw [← h, h0]
  · by_cases hB0 : B = []
    · subst hB0
      rw [h0]
      constructor
      · intro h
        exact absurd ((renderAbs_eq_slash_iff hA).mp h) hA0
      · intro h
        exact absurd h hA0
    · rw [renderAbs_of_ne_nil hA0, renderAbs_of_ne_nil hB0]
      constructor
      · intro h
        exact (flat_inj A B hA hB).mp (String.ext_iff.mp h)
      · intro h
        rw [h]

theorem renderAbs_append_slash_data {B : List String} (hBne : B ≠ []) :
    (renderAbs B ++ "/").data = flatChars B ++ ['/'] := by
  rw [String.data_append, renderAbs_of_ne_nil hBne]

theorem renderAbs_sep_prefix_iff (A B : List String) (hA : goodSegs A)
    (hB : goodSegs B) (hBne : B ≠ []) :
    ((renderAbs B ++ "/").data <+: (renderAbs A).data) ↔ (B <+: A ∧ B ≠ A) := by
  rw [renderAbs_append_slash_data hBne]
  cases A with
  | nil =>
      rw [renderAbs]
      simp only [if_pos rfl]
      constructor
      · intro h
        cases B with
        | nil => exact absurd rfl hBne
        | cons b B2 =>
            rw [flatChars_cons, List.cons_append] at h
            have := (List.cons_prefix_cons.mp h).2
            simp at this
      · rintro ⟨h1, -⟩
        exact absurd (List.prefix_nil.mp h1) hBne
  | cons a A2 =>
      rw [renderAbs_of_ne_nil (by simp)]
      exact flat_prefix_strict B (a :: A2) hB hA

theorem sepCheck_true_iff (A B : List String) (hA : goodSegs A)
    (hB : goodSegs B) (hBne : B ≠ []) :
    ((renderAbs A == renderAbs B) ||
      strStartsWith (renderAbs A) (renderAbs B ++ "/")) = true ↔ B <+: A := by
  rw [Bool.or_eq_true, beq_iff_eq, strStartsWith, List.isPrefixOf_iff_prefix,
    renderAbs_sep_prefix_iff A B hA hB hBne, renderAbs_inj hA hB]
  constructor
  · rintro (rfl | ⟨h, -⟩)
    · exact List.prefix_refl A
    · exact h
  · intro h
    by_cases he : A = B
    · exact Or.inl he
    · exact Or.inr ⟨h, fun e => he e.symm⟩

/-!
Lemmas about `splitSegs` and `normAbs`.
-/

theorem mem_splitOnSlashAux_noSlash :
    ∀ (cs cur : List Char) (s : String), (∀ c ∈ cur, c ≠ '/') →
      s ∈ splitOnSlashAux cs cur → '/' ∉ s.data := by
  intro cs
  induction cs with
  | nil =>
      intro cur s hcur hs hmem
      simp [splitOnSlashAux] at hs
      subst hs
      exact hcur '/' (by simpa using hmem) rfl
  | cons c cs ih =>
      intro cur s hcur hs
      by_cases hc : c = '/'
      · rw [splitOnSlashAux, if_pos hc] at hs
        rcases List.mem_cons.mp hs with rfl | ht
        · intro hmem
          exact hcur '/' (by simpa using hmem) rfl
        · exact ih [] s (by simp) ht
      · rw [splitOnSlashAux, if_neg hc] at hs
        refine ih (c :: cur) s ?_ hs
        intro x hx
        rcases List.mem_cons.mp hx with rfl | hx2
        · exact hc
        · exact hcur x hx2

theorem goodSegs_splitSegs (p : String) : goodSegs (splitSegs p) := by
  intro s hs
  rw [splitSegs] at hs
  refine ⟨of_decide_eq_true (List.mem_filter.mp hs).2, ?_⟩
  exact mem_splitOnSlashAux_noSlash p.data [] s (by simp)
    (List.mem_filter.mp hs).1

theorem splitOnSlashAux_append_noslash :
    ∀ (seg rest cur : List Char), (∀ c ∈ seg, c ≠ '/') →
      splitOnSlashAux (seg ++ rest) cur =
        splitOnSlashAux rest (seg.reverse ++ cur) := by
  intro seg
  induction seg with
  | nil => intro rest cur _; simp
  | cons c t ih =>
      intro rest cur h
      rw [List.cons_append, splitOnSlashAux,
        if_neg (h c (List.mem_cons_self c t)),
        ih rest (c :: cur) (fun x hx => h x (List.mem_cons_of_mem c hx))]
      simp [List.append_assoc]

theorem splitOnSlashAux_flat (M : List String) :
    ∀ (cur : List Char), goodSegs M →
      splitOnSlashAux (flatChars M) cur = String.mk cur.reverse :: M := by
  induction M with
  | nil => intro cur _; rfl
  | cons m M2 ih =>
      intro cur hM
      rw [flatChars_cons, splitOnSlashAux, if_pos rfl,
        splitOnSlashAux_append_noslash m.data _ []
          (noSlash_data_of_goodSegs hM (List.mem_cons_self m M2)),
        List.append_nil,
        ih m.data.reverse (fun s hs => hM s (List.mem_cons_of_mem m hs))]
      rw [List.reverse_reverse]

theorem splitOnSlashAux_flat_slash (M : List String) :
    ∀ (rest cur : List Char), goodSegs M →
      splitOnSlashAux (flatChars M ++ '/' :: rest) cur =
        String.mk cur.reverse :: (M ++ splitOnSlashAux rest []) := by
  induction M with
  | nil =>
      intro rest cur _
      show splitOnSlashAux ([] ++ '/' :: rest) cur = _
      rw [List.nil_append, splitOnSlashAux, if_pos rfl, List.nil_append]
  | cons m M2 ih =>
      intro rest cur hM
      rw [flatChars_cons, List.cons_append, splitOnSlashAux, if_pos rfl,
        List.append_assoc,
        splitOnSlashAux_append_noslash m.data _ []
          (noSlash_data_of_goodSegs hM (List.mem_cons_self m M2)),
        List.append_nil,
        ih rest m.data.reverse (fun s hs => hM s (List.mem_cons_of_mem m hs))]
      rw [List.reverse_reverse, List.cons_append]

theorem splitSegs_renderAbs {M : List String} (hM : goodSegs M) :
    splitSegs (renderAbs M) = M := by
  by_cases hM0 : M = []
  · subst hM0
    decide
  · rw [renderAbs_of_ne_nil hM0, splitSegs,
      show (String.mk (flatChars M)).data = flatChars M from rfl,
      splitOnSlashAux_flat M [] hM]
    simp only [List.reverse_nil]
    rw [List.filter_cons]
    have h1 : (decide (String.mk [] ≠ "")) = false := by decide
    rw [h1]
    simp only [Bool.false_eq_true, if_false]
    rw [List.filter_eq_self]
    intro a ha
    exact decide_eq_true (hM a ha).1

theorem foldl_normStepAbs_mem :
    ∀ (l acc : List String) (x : String), x ∈ l.foldl normStepAbs acc →
      x ∈ acc ∨ (x ∈ l ∧ x ≠ "." ∧ x ≠ "..") := by
  intro l
  induction l with
  | nil => intro acc x hx; exact Or.inl (by simpa using hx)
  | cons s t ih =>
      intro acc x hx
      rw [List.foldl_cons] at hx
      rcases ih (normStepAbs acc s) x hx with h | ⟨h1, h2, h3⟩
      · rw [normStepAbs] at h
        by_cases hs1 : s = "."
        · rw [if_pos hs1] at h
          exact Or.inl h
        · rw [if_neg hs1] at h
          by_cases hs2 : s = ".."
          · rw [if_pos hs2] at h
            exact Or.inl (List.dropLast_subset acc h)
          · rw [if_neg hs2] at h
            rcases List.mem_append.mp h with h2 | h2
            · exact Or.inl h2
            · have : x = s := by simpa using h2
              subst this
              exact Or.inr ⟨List.mem_cons_self x t, hs1, hs2⟩
      · exact Or.inr ⟨List.mem_cons_of_mem s h1, h2, h3⟩

theorem foldl_normStepAbs_no_dotdot :
    ∀ (l acc : List String), ".." ∉ l →
      l.foldl normStepAbs acc = acc ++ l.filter (fun s => s ≠ ".") := by
  intro l
  induction l with
  | nil => intro acc _; simp
  | cons s t ih =>
      intro acc h
      have hs2 : s ≠ ".." := fun e => h (e ▸ List.mem_cons_self s t)
      have ht : ".." ∉ t := fun e => h (List.mem_cons_of_mem s e)
      rw [List.foldl_cons, normStepAbs, List.filter_cons]
      by_cases hs : s = "."
      · rw [if_pos hs, ih acc ht,
          show (decide (s ≠ ".")) = false from by rw [hs]; decide]
        simp
      · rw [if_neg hs, if_neg hs2, ih (acc ++ [s]) ht,
          show (decide (s ≠ ".")) = true from decide_eq_true hs]
        simp [List.append_assoc]

theorem foldl_normStepAbs_clean (l acc : List String)
    (h : ∀ x ∈ l, x ≠ "." ∧ x ≠ "..") :
    l.foldl normStepAbs acc = acc ++ l := by
  rw [foldl_normStepAbs_no_dotdot l acc (fun hm => (h ".." hm).2 rfl)]
  congr 1
  rw [List.filter_eq_self]
  intro a ha
  exact decide_eq_true (h a ha).1

theorem goodSegs_normAbs {l : List String} (hl : goodSegs l) :
    goodSegs (normAbs l) := by
  intro x hx
  rcases foldl_normStepAbs_mem l [] x hx with h | ⟨h, -, -⟩
  · simp at h
  · exact hl x h

theorem normAbs_no_dots {l : List String} :
    ∀ x ∈ normAbs l, x ≠ "." ∧ x ≠ ".." := by
  intro x hx
  rcases foldl_normStepAbs_mem l [] x hx with h | ⟨-, h2, h3⟩
  · simp at h
  · exact ⟨h2, h3⟩

theorem normAbs_append (a b : List String) :
    normAbs (a ++ b) = b.foldl normStepAbs (normAbs a) := by
  rw [normAbs, normAbs, List.foldl_append]

theorem goodSegs_append {A B : List String} (hA : goodSegs A)
    (hB : goodSegs B) : goodSegs (A ++ B) := by
  intro s hs
  rcases List.mem_append.mp hs with h | h
  · exact hA s h
  · exact hB s h

/-!
Resolution over the symlink-free filesystem.
-/

theorem strStartsWith_renderAbs_slash (M : List String) :
    strStartsWith (renderAbs M) "/" = true := by
  cases M with
  | nil => decide
  | cons m M2 =>
      rw [strStartsWith, renderAbs_of_ne_nil (by simp)]
      show (("/" : String).data.isPrefixOf (flatChars (m :: M2))) = true
      rw [flatChars_cons]
      show (['/'].isPrefixOf ('/' :: (m.data ++ flatChars M2))) = true
      simp [ List.isPrefixOf_iff_prefix, List.cons_prefix_cons]

theorem resolveStr_absolute (cwd p : String)
    (h : strStartsWith p "/" = true) :
    resolveStr cwd p = renderAbs (normAbs (splitSegs p)) := by
  rw [resolveStr, if_pos h]

theorem walkUp_plainFS (absolute : String) :
    ∀ (rev suf : List String), walkUp plainFS absolute rev suf = absolute := by
  intro rev
  induction rev with
  | nil => intro suf; rfl
  | cons s rest ih =>
      intro suf
      rw [walkUp]
      exact ih (suf ++ [s])

theorem resolveRealPath_plainFS (cwd p : String) :
    resolveRealPath plainFS cwd p = resolveStr cwd p := by
  rw [resolveRealPath]
  exact walkUp_plainFS _ _ _

theorem resolveStr_renderAbs (cwd : String) {M : List String}
    (hM : goodSegs M) (hdots : ∀ x ∈ M, x ≠ "." ∧ x ≠ "..") :
    resolveStr cwd (renderAbs M) = renderAbs M := by
  rw [resolveStr_absolute cwd _ (strStartsWith_renderAbs_slash M),
    splitSegs_renderAbs hM, normAbs, foldl_normStepAbs_clean M [] hdots,
    List.nil_append]

theorem strStartsWith_false_of_ne_true {p pre : String}
    (h : strStartsWith p pre = false) : ¬(strStartsWith p pre = true) := by
  rw [h]
  simp

theorem candidateCanonical_plainFS_rel (cwd home root p : String)
    (hroot : strStartsWith root "/" = true)
    (hp1 : strStartsWith p "/" = false)
    (hp2 : strStartsWith p "~/" = false)
    (hp3 : ".." ∉ splitSegs p) :
    candidateCanonical plainFS cwd home root p =
      renderAbs (normAbs (splitSegs root) ++
        (splitSegs p).filter (fun s => s ≠ ".")) := by
  have hgood : goodSegs (normAbs (splitSegs root) ++
      (splitSegs p).filter (fun s => s ≠ ".")) := by
    refine goodSegs_append (goodSegs_normAbs (goodSegs_splitSegs root)) ?_
    intro s hs
    exact goodSegs_splitSegs p s (List.mem_filter.mp hs).1
  have hdots : ∀ x ∈ normAbs (splitSegs root) ++
      (splitSegs p).filter (fun s => s ≠ "."), x ≠ "." ∧ x ≠ ".." := by
    intro x hx
    rcases List.mem_append.mp hx with h | h
    · exact normAbs_no_dots x h
    · obtain ⟨hmem, hdec⟩ := List.mem_filter.mp h
      exact ⟨of_decide_eq_true hdec, fun e => hp3 (e ▸ hmem)⟩
  rw [candidateCanonical, candidateAbs, expandTilde,
    if_neg (strStartsWith_false_of_ne_true hp2),
    if_neg (strStartsWith_false_of_ne_true hp1),
    resolve2Str, if_neg (strStartsWith_false_of_ne_true hp1), if_pos hroot,
    normAbs_append, foldl_normStepAbs_no_dotdot _ _ hp3,
    resolveRealPath_plainFS, resolveStr_renderAbs cwd hgood hdots]

theorem withinVault_plainFS_extend (cwd home root p : String)
    (E : List String) (hroot : strStartsWith root "/" = true)
    (hR : normAbs (splitSegs root) ≠ [])
    (hE : goodSegs (normAbs (splitSegs root) ++ E))
    (hcand : candidateCanonical plainFS cwd home root p =
      renderAbs (normAbs (splitSegs root) ++ E)) :
    isPathWithinVault plainFS cwd home p root = true := by
  rw [isPathWithinVault]
  show ((candidateCanonical plainFS cwd home root p ==
      resolveRealPath plainFS cwd root) ||
    strStartsWith (candidateCanonical plainFS cwd home root p)
      (resolveRealPath plainFS cwd root ++ "/")) = true
  rw [hcand, resolveRealPath_plainFS, resolveStr_absolute cwd root hroot]
  exact (sepCheck_true_iff _ _ hE
    (goodSegs_normAbs (goodSegs_splitSegs root)) hR).mpr
    (List.prefix_append _ E)

theorem strStartsWith_iff {s pre : String} :
    strStartsWith s pre = true ↔ pre.data <+: s.data := by
  rw [strStartsWith]
  exact List.isPrefixOf_iff_prefix

theorem strStartsWith_append_left {a pre : String} (b : String)
    (h : strStartsWith a pre = true) : strStartsWith (a ++ b) pre = true := by
  rw [strStartsWith_iff] at h ⊢
  rw [String.data_append]
  exact h.trans (List.prefix_append _ _)

theorem not_tilde_of_slash {q : String} (h : strStartsWith q "/" = true) :
    strStartsWith q "~/" = false := by
  cases hb : strStartsWith q "~/" with
  | false => rfl
  | true =>
      exfalso
      rw [strStartsWith_iff] at h hb
      obtain ⟨u, hu⟩ := h
      obtain ⟨v, hv⟩ := hb
      rw [← hu] at hv
      simp at hv

theorem singleton_prefix_iff_head {x : String} {L : List String} :
    [x] <+: L ↔ L.head? = some x := by
  cases L with
  | nil => simp
  | cons y t =>
      rw [List.cons_prefix_cons]
      simp [eq_comm]

/-- C1: for every candidate path and vault root, `isPathWithinVault`
returns true iff the canonicalized candidate equals the canonicalized
vault root or is a path-separator-bounded descendant of it; in
particular `isPathWithinVault "/vault-evil/x" "/vault"` is false even
though the string `"/vault-evil/x"` begins with `"/vault"`. -/
theorem claim_C1 :
    (∀ (fs : FS) (cwd home candidate vault : String),
      isPathWithinVault fs cwd home candidate vault = true ↔
        (candidateCanonical fs cwd home vault candidate =
            resolveRealPath fs cwd vault ∨
          (resolveRealPath fs cwd vault ++ "/").data <+:
            (candidateCanonical fs cwd home vault candidate).data)) ∧
    isPathWithinVault plainFS "/" "/home/user" "/vault-evil/x" "/vault"
      = false := by
  constructor
  · intro fs cwd home candidate vault
    rw [isPathWithinVault]
    show ((candidateCanonical fs cwd home vault candidate ==
        resolveRealPath fs cwd vault) ||
      strStartsWith (candidateCanonical fs cwd home vault candidate)
        (resolveRealPath fs cwd vault ++ "/")) = true ↔ _
    rw [Bool.or_eq_true, beq_iff_eq, strStartsWith_iff]
  · decide

/-- C6: export containment is false whenever the configured export-root
list is empty, for every filesystem, candidate and vault root. -/
theorem claim_C6 :
    ∀ (fs : FS) (cwd home candidate vault : String),
      isPathInAllowedExportPaths fs cwd home candidate [] vault = false := by
  intro fs cwd home candidate vault
  rfl

/-- C10: export-root containment uses the same separator-bounded
descendant check as vault containment — `isPathInAllowedExportPaths`
returns true iff the resolved candidate equals some resolved export root
or extends it by a path separator; in particular `"/tmp-evil/x"` is not
contained in export root `"/tmp"`. -/
theorem claim_C10 :
    (∀ (fs : FS) (cwd home candidate vault : String) (roots : List String),
      isPathInAllowedExportPaths fs cwd home candidate roots vault = true ↔
        ∃ e ∈ roots,
          (candidateCanonical fs cwd home vault candidate =
              resolveRealPath fs cwd (expandTilde home e) ∨
            (resolveRealPath fs cwd (expandTilde home e) ++ "/").data <+:
              (candidateCanonical fs cwd home vault candidate).data)) ∧
    isPathInAllowedExportPaths plainFS "/" "/home/user" "/tmp-evil/x"
      ["/tmp"] "/vault" = false := by
  constructor
  · intro fs cwd home candidate vault roots
    cases roots with
    | nil => simp [isPathInAllowedExportPaths]
    | cons r rs =>
        rw [isPathInAllowedExportPaths]
        show ((r :: rs).any fun exportPath =>
          (candidateCanonical fs cwd home vault candidate ==
            resolveRealPath fs cwd (expandTilde home exportPath)) ||
          strStartsWith (candidateCanonical fs cwd home vault candidate)
            (resolveRealPath fs cwd (expandTilde home exportPath) ++ "/"))
            = true ↔ _
        rw [List.any_eq_true]
        constructor
        · rintro ⟨e, he, hcond⟩
          rw [Bool.or_eq_true, beq_iff_eq, strStartsWith_iff] at hcond
          exact ⟨e, he, hcond⟩
        · rintro ⟨e, he, hcond⟩
          refine ⟨e, he, ?_⟩
          rw [Bool.or_eq_true, beq_iff_eq, strStartsWith_iff]
          exact hcond
  · decide

/-- C2 counterexample: the claim fails on the code in both directions —
the relative path `"x"` does not satisfy containment in the vault root
`"/"` even though it has no escaping segments, and
`root ++ "/../" ++ s` is accepted for `s = "vault/x"` because the
canonicalized candidate re-enters the vault. -/
theorem claim_C2_counterexample :
    isPathWithinVault plainFS "/" "/home/user"
      ("/vault" ++ "/../" ++ "vault/x") "/vault" = true ∧
    isPathWithinVault plainFS "/" "/home/user" "x" "/" = false :=
  ⟨by decide, by decide⟩

/-- C2 (amended): over a symlink-free filesystem, a relative candidate
(no leading `/` or `~/`) with no `..` segments is contained in every
absolute vault root whose canonical form is not the filesystem root;
and `"/vault" ++ "/../" ++ s` is contained in vault `"/vault"` exactly
when the canonicalization of `s` re-enters the vault, i.e. when its
first canonical segment is `"vault"`. -/
theorem claim_C2_amended :
    (∀ (cwd home root p : String),
      strStartsWith root "/" = true →
      normAbs (splitSegs root) ≠ [] →
      strStartsWith p "/" = false →
      strStartsWith p "~/" = false →
      ".." ∉ splitSegs p →
      isPathWithinVault plainFS cwd home p root = true) ∧
    (∀ (cwd home s : String),
      isPathWithinVault plainFS cwd home ("/vault/../" ++ s) "/vault"
          = true ↔
        (normAbs (splitSegs s)).head? = some "vault") := by
  constructor
  · intro cwd home root p hroot hR hp1 hp2 hp3
    refine withinVault_plainFS_extend cwd home root p
      ((splitSegs p).filter (fun s => s ≠ ".")) hroot hR ?_ ?_
    · refine goodSegs_append (goodSegs_normAbs (goodSegs_splitSegs root)) ?_
      intro s hs
      exact goodSegs_splitSegs p s (List.mem_filter.mp hs).1
    · exact candidateCanonical_plainFS_rel cwd home root p hroot hp1 hp2 hp3
  · intro cwd home s
    have hq : strStartsWith ("/vault/../" ++ s) "/" = true :=
      strStartsWith_append_left s (by decide)
    have hsplit : splitSegs ("/vault/../" ++ s) =
        "vault" :: ".." :: splitSegs s := by
      rw [splitSegs]
      have hdata : ("/vault/../" ++ s).data =
          flatChars ["vault", ".."] ++ ('/' :: s.data) := by
        rw [String.data_append,
          show ("/vault/../" : String).data =
            flatChars ["vault", ".."] ++ ['/'] from by decide,
          List.append_assoc]
        rfl
      rw [hdata, splitOnSlashAux_flat_slash ["vault", ".."] s.data []
        (by decide)]
      simp only [List.reverse_nil]
      rw [List.filter_cons,
        show (decide (String.mk [] ≠ "")) = false from by decide]
      simp only [Bool.false_eq_true, if_false]
      rw [show (["vault", ".."] ++ splitOnSlashAux s.data []) =
        "vault" :: ".." :: splitOnSlashAux s.data [] from rfl,
        List.filter_cons, List.filter_cons,
        show (decide (("vault" : String) ≠ "")) = true from by decide,
        show (decide ((".." : String) ≠ "")) = true from by decide]
      rfl
    have hcanon : candidateCanonical plainFS cwd home "/vault"
        ("/vault/../" ++ s) = renderAbs (normAbs (splitSegs s)) := by
      rw [candidateCanonical, candidateAbs, expandTilde,
        if_neg (strStartsWith_false_of_ne_true (not_tilde_of_slash hq)),
        if_pos hq, resolveRealPath_plainFS, resolveStr_absolute _ _ hq,
        hsplit]
      congr 1
    have hv : resolveRealPath plainFS cwd "/vault" = renderAbs ["vault"] := by
      rw [resolveRealPath_plainFS, resolveStr_absolute _ _ (by decide),
        show normAbs (splitSegs "/vault") = ["vault"] from by decide]
    rw [isPathWithinVault]
    show ((candidateCanonical plainFS cwd home "/vault" ("/vault/../" ++ s) ==
        resolveRealPath plainFS cwd "/vault") ||
      strStartsWith
        (candidateCanonical plainFS cwd home "/vault" ("/vault/../" ++ s))
        (resolveRealPath plainFS cwd "/vault" ++ "/")) = true ↔ _
    rw [hcanon, hv,
      sepCheck_true_iff (normAbs (splitSegs s)) ["vault"]
        (goodSegs_normAbs (goodSegs_splitSegs s)) (by decide) (by simp)]
    exact singleton_prefix_iff_head

/-- C2 amended witness: a concrete relative path inside a concrete
vault root. -/
theorem claim_C2_amended_witness :
    isPathWithinVault plainFS "/" "/home/user" "notes/file.md" "/vault"
      = true :=
  claim_C2_amended.1 "/" "/home/user" "/vault" "notes/file.md"
    (by decide) (by decide) (by decide) (by decide) (by decide)

/-- Resolution of the bare candidate `"~"`: it is not home-expanded
(only the two-character prefix `~/` triggers expansion), so it is
resolved against the vault path. -/
theorem candidateAbs_tilde (cwd vault home : String) :
    candidateAbs cwd vault home "~" = resolve2Str cwd vault "~" := by
  rw [candidateAbs, expandTilde,
    if_neg (strStartsWith_false_of_ne_true
      (show strStartsWith "~" "~/" = false from by decide)),
    if_neg (strStartsWith_false_of_ne_true
      (show strStartsWith "~" "/" = false from by decide))]

/-- C9 counterexample: `isPathWithinVault "~" "/"` is false, refuting
"returns true for every vault root". -/
theorem claim_C9_counterexample :
    isPathWithinVault plainFS "/" "/home/user" "~" "/" = false := by
  decide

/-- C9 (amended): home-directory expansion applies only to candidates
starting with the two-character prefix `~/` — the bare candidate `"~"`
is not expanded (the result does not depend on the home directory) but
is resolved as a path relative to the vault root, so
`isPathWithinVault "~" root` is true for every absolute vault root
whose canonical form is not the filesystem root. -/
theorem claim_C9_amended :
    (∀ (fs : FS) (cwd home1 home2 vault : String),
      isPathWithinVault fs cwd home1 "~" vault =
        isPathWithinVault fs cwd home2 "~" vault) ∧
    (∀ (cwd home root : String),
      strStartsWith root "/" = true →
      normAbs (splitSegs root) ≠ [] →
      isPathWithinVault plainFS cwd home "~" root = true) := by
  constructor
  · intro fs cwd home1 home2 vault
    rw [isPathWithinVault, isPathWithinVault, candidateCanonical,
      candidateCanonical, candidateAbs_tilde, candidateAbs_tilde]
  · intro cwd home root h1 h2
    refine withinVault_plainFS_extend cwd home root "~" ["~"] h1 h2 ?_ ?_
    · exact goodSegs_append (goodSegs_normAbs (goodSegs_splitSegs root))
        (by decide)
    · rw [candidateCanonical, candidateAbs_tilde, resolve2Str,
        if_neg (strStartsWith_false_of_ne_true
          (show strStartsWith "~" "/" = false from by decide)), if_pos h1,
        show splitSegs "~" = ["~"] from by decide, normAbs_append,
        foldl_normStepAbs_clean ["~"] _ (by decide),
        resolveRealPath_plainFS]
      refine resolveStr_renderAbs cwd ?_ ?_
      · exact goodSegs_append (goodSegs_normAbs (goodSegs_splitSegs root))
          (by decide)
      · intro x hx
        rcases List.mem_append.mp hx with h | h
        · exact normAbs_no_dots x h
        · have : x = "~" := by simpa using h
          subst this
          exact ⟨by decide, by decide⟩

/-- C9 amended witness: the bare `"~"` candidate inside a concrete
vault root. -/
theorem claim_C9_amended_witness :
    isPathWithinVault plainFS "/" "/home/user" "~" "/vault" = true :=
  claim_C9_amended.2 "/" "/home/user" "/vault" (by decide) (by decide)

/-!
The walk-up loop of `resolveRealPath`, characterized.
-/

theorem walkUp_no_found (fs : FS) (absolute : String) :
    ∀ (rev suf : List String),
      (∀ i, i ≤ rev.length →
        tryAncestor fs (renderAbs ((rev.drop i).reverse)) = none) →
      walkUp fs absolute rev suf = absolute := by
  intro rev
  induction rev with
  | nil =>
      intro suf h
      have h0 : tryAncestor fs "/" = none := h 0 (by simp)
      rw [walkUp, h0]
  | cons s rest ih =>
      intro suf h
      have h0 : tryAncestor fs (renderAbs (s :: rest).reverse) = none :=
        h 0 (by simp)
      rw [walkUp, h0]
      refine ih (suf ++ [s]) ?_
      intro i hi
      have := h (i + 1) (by simpa using Nat.succ_le_succ hi)
      simpa using this

theorem walkUp_found (fs : FS) (absolute : String) :
    ∀ (rev : List String) (i : Nat) (suf : List String) (r : String),
      i ≤ rev.length →
      (∀ k, k < i →
        tryAncestor fs (renderAbs ((rev.drop k).reverse)) = none) →
      tryAncestor fs (renderAbs ((rev.drop i).reverse)) = some r →
      walkUp fs absolute rev suf =
        joinSuffix r ((rev.take i).reverse ++ suf.reverse) := by
  intro rev
  induction rev with
  | nil =>
      intro i suf r hi hk hf
      have hi0 : i = 0 := Nat.le_zero.mp hi
      subst hi0
      have hf0 : tryAncestor fs "/" = some r := hf
      rw [walkUp, hf0]
      simp
  | cons s rest ih =>
      intro i suf r hi hk hf
      cases i with
      | zero =>
          have hf0 : tryAncestor fs (renderAbs (s :: rest).reverse) = some r :=
            hf
          rw [walkUp, hf0]
          simp
      | succ i2 =>
          have h0 : tryAncestor fs (renderAbs (s :: rest).reverse) = none :=
            hk 0 (Nat.succ_pos i2)
          rw [walkUp, h0,
            ih i2 (suf ++ [s]) r (Nat.le_of_succ_le_succ hi)
              (fun k hk2 => by
                have := hk (k + 1) (Nat.succ_lt_succ hk2)
                simpa using this)
              (by simpa using hf)]
          simp [List.reverse_append, List.append_assoc]

/-- C5: `resolveRealPath` is total and never throws — when the full
canonicalization succeeds it returns its result; when it fails, the
nearest existing ancestor (the deepest prefix for which `existsSync`
holds and `realpathSync` succeeds) is canonicalized and the non-existent
suffix segments are re-appended in their original order; and when no
ancestor at all resolves, the non-symlink-resolved absolute form
`path.resolve(p)` is returned. -/
theorem claim_C5 :
    ∀ (fs : FS) (cwd p : String),
      (∀ r, fs.realpathSync p = some r → resolveRealPath fs cwd p = r) ∧
      (fs.realpathSync p = none →
        ((∀ j, j ≤ (splitSegs (resolveStr cwd p)).length →
            tryAncestor fs
              (renderAbs ((splitSegs (resolveStr cwd p)).take j)) = none) →
          resolveRealPath fs cwd p = resolveStr cwd p) ∧
        (∀ j r, j ≤ (splitSegs (resolveStr cwd p)).length →
          tryAncestor fs
            (renderAbs ((splitSegs (resolveStr cwd p)).take j)) = some r →
          (∀ i, i ≤ (splitSegs (resolveStr cwd p)).length → j < i →
            tryAncestor fs
              (renderAbs ((splitSegs (resolveStr cwd p)).take i)) = none) →
          resolveRealPath fs cwd p =
            joinSuffix r ((splitSegs (resolveStr cwd p)).drop j))) := by
  intro fs cwd p
  constructor
  · intro r h
    rw [resolveRealPath, h]
  · intro hnone
    have hrw : resolveRealPath fs cwd p =
        walkUp fs (resolveStr cwd p)
          (splitSegs (resolveStr cwd p)).reverse [] := by
      rw [resolveRealPath, hnone]
    constructor
    · intro h
      rw [hrw]
      refine walkUp_no_found fs _ (splitSegs (resolveStr cwd p)).reverse [] ?_
      intro i hi
      rw [List.length_reverse] at hi
      rw [show ((splitSegs (resolveStr cwd p)).reverse.drop i).reverse =
        (splitSegs (resolveStr cwd p)).take
          ((splitSegs (resolveStr cwd p)).length - i) from by
          rw [List.drop_reverse, List.reverse_reverse]]
      exact h _ (Nat.sub_le _ i)
    · intro j r hj hf hmax
      rw [hrw]
      have hdrop : ∀ k, ((splitSegs (resolveStr cwd p)).reverse.drop k).reverse
          = (splitSegs (resolveStr cwd p)).take
              ((splitSegs (resolveStr cwd p)).length - k) := by
        intro k
        rw [List.drop_reverse, List.reverse_reverse]
      rw [walkUp_found fs (resolveStr cwd p)
        (splitSegs (resolveStr cwd p)).reverse
        ((splitSegs (resolveStr cwd p)).length - j) [] r
        (by rw [List.length_reverse]; exact Nat.sub_le _ j)
        (fun k hklt => by
          rw [hdrop k]
          refine hmax _ (Nat.sub_le _ k) ?_
          omega)
        (by
          rw [hdrop]
          rw [show (splitSegs (resolveStr cwd p)).length -
            ((splitSegs (resolveStr cwd p)).length - j) = j from by omega]
          exact hf)]
      congr 1
      rw [List.take_reverse, List.reverse_reverse,
        show (splitSegs (resolveStr cwd p)).length -
          ((splitSegs (resolveStr cwd p)).length - j) = j from by omega]
      simp

/-- C5 witness: on a filesystem where only `/a` exists and
canonicalizes to `/x`, the non-existent `/a/b` resolves to the
canonical ancestor with the missing suffix re-appended. -/
theorem claim_C5_witness : resolveRealPath fsB "/" "/a/b" = "/x/b" := by
  have h := ((claim_C5 fsB "/" "/a/b").2 (by decide)).2 1 "/x"
    (by decide) (by decide) (by decide)
  exact h.trans (by decide)

/-!
Blocklist (C4), mediator write-only policy (C3), approval store (C7)
and session continuity (C8).
-/

/-- C4: the blocklist check compiles each pattern as a regular
expression and matches it against the command, falling back to
case-sensitive literal substring containment when compilation fails;
`"rm\\s+-rf"` compiles and matches `"rm   -rf /home"`, and the invalid
pattern `"[invalid regex"` matches exactly the commands containing it as
a literal substring. -/
theorem claim_C4 :
    (∀ (pattern command : String),
      matchesBlockPattern pattern command =
        match compileRegex pattern with
        | some items => regexTest items command.data
        | none => strContains command pattern) ∧
    ((compileRegex "rm\\s+-rf").isSome = true ∧
      matchesBlockPattern "rm\\s+-rf" "rm   -rf /home" = true) ∧
    (compileRegex "[invalid regex" = none ∧
      ∀ command : String,
        matchesBlockPattern "[invalid regex" command =
          strContains command "[invalid regex") := by
  refine ⟨fun pattern command => rfl, ⟨by decide, by decide⟩, by decide, ?_⟩
  intro command
  rw [matchesBlockPattern,
    show compileRegex "[invalid regex" = none from by decide]

theorem listContains_nil_needle : ∀ (hay : List Char),
    listContains hay [] = true := by
  intro hay
  cases hay with
  | nil => rfl
  | cons c t =>
      rw [listContains]
      simp [List.isPrefixOf]

theorem listContains_append_left (c x n : List Char)
    (h : listContains c n = true) : listContains (c ++ x) n = true := by
  induction c with
  | nil =>
      rw [listContains] at h
      have hn : n = [] := List.prefix_nil.mp ( List.isPrefixOf_iff_prefix.mp h)
      subst hn
      rw [List.nil_append]
      exact listContains_nil_needle x
  | cons c0 ct ih =>
      rw [listContains, Bool.or_eq_true] at h
      rcases h with h1 | h2
      · rw [List.cons_append, listContains, Bool.or_eq_true]
        refine Or.inl ?_
        refine List.isPrefixOf_iff_prefix.mpr
          (( List.isPrefixOf_iff_prefix.mp h1).trans ?_)
        rw [← List.cons_append]
        exact List.prefix_append _ x
      · rw [List.cons_append, listContains, Bool.or_eq_true]
        exact Or.inr (ih h2)

theorem strContains_writeOnlyMsg (t : String) :
    strContains (writeOnlyMsg t) "write-only" = true := by
  rw [writeOnlyMsg, strContains, String.data_append]
  exact listContains_append_left _ t.data _ (by decide)

theorem checkToken_read_export (ctx : SandboxCtx) (tok : String)
    (hv : isPathWithinVault ctx.fs ctx.cwd ctx.home tok ctx.vaultPath = false)
    (he : isPathInAllowedExportPaths ctx.fs ctx.cwd ctx.home tok
      ctx.exportPaths ctx.vaultPath = true) :
    checkToken ctx (tok, Intent.read) = some (writeOnlyMsg tok) := by
  simp [checkToken, hv, he]

theorem firstViolation_writeOnly (ctx : SandboxCtx) :
    ∀ (l : List (String × Intent)),
      (∃ t ∈ l, checkToken ctx t = some (writeOnlyMsg t.1)) →
      (∀ t ∈ l, checkToken ctx t = none ∨
        checkToken ctx t = some (writeOnlyMsg t.1)) →
      ∃ msg, firstViolation ctx l = some msg ∧
        strContains msg "write-only" = true := by
  intro l
  induction l with
  | nil =>
      rintro ⟨t, ht, -⟩ -
      exact absurd ht (by simp)
  | cons t ts ih =>
      rintro ⟨w, hw, hwv⟩ hall
      cases hc : checkToken ctx t with
      | some m =>
          refine ⟨m, by rw [firstViolation, hc], ?_⟩
          rcases hall t (List.mem_cons_self t ts) with h | h
          · rw [hc] at h
            exact absurd h (by simp)
          · rw [hc] at h
            injection h with h2
            subst h2
            exact strContains_writeOnlyMsg t.1
      | none =>
          rw [firstViolation, hc]
          refine ih ⟨w, ?_, hwv⟩
            (fun u hu => hall u (List.mem_cons_of_mem t hu))
          rcases List.mem_cons.mp hw with rfl | h
          · rw [hc] at hwv
            exact absurd hwv (by simp)
          · exact h

/-- C3: a Bash call carrying a Read-intent path operand that resolves
only within a configured export root (and not within the vault) is
blocked by the mediator, and — provided the call's other operands are
clean, as in the cited test — the blocked diagnostic contains
"write-only". -/
theorem claim_C3 :
    ∀ (ctx : SandboxCtx) (command : String),
      (∃ t ∈ extractPathTokens command, t.2 = Intent.read ∧
        isPathWithinVault ctx.fs ctx.cwd ctx.home t.1 ctx.vaultPath = false ∧
        isPathInAllowedExportPaths ctx.fs ctx.cwd ctx.home t.1
          ctx.exportPaths ctx.vaultPath = true) →
      (∀ t ∈ extractPathTokens command,
        isPathWithinVault ctx.fs ctx.cwd ctx.home t.1 ctx.vaultPath = false →
        isPathInAllowedExportPaths ctx.fs ctx.cwd ctx.home t.1
          ctx.exportPaths ctx.vaultPath = true) →
      (∀ t ∈ extractPathTokens command, t.2 = Intent.write →
        (isPathWithinVault ctx.fs ctx.cwd ctx.home t.1 ctx.vaultPath ||
          isPathInAllowedExportPaths ctx.fs ctx.cwd ctx.home t.1
            ctx.exportPaths ctx.vaultPath) = true) →
      ∃ msg, mediateBashPaths ctx command = some msg ∧
        strContains msg "write-only" = true := by
  intro ctx command hex hread hwrite
  rw [mediateBashPaths]
  refine firstViolation_writeOnly ctx (extractPathTokens command) ?_ ?_
  · obtain ⟨t, ht, hr, hv, he⟩ := hex
    obtain ⟨ts, ti⟩ := t
    cases ti with
    | read => exact ⟨(ts, .read), ht, checkToken_read_export ctx ts hv he⟩
    | write => exact absurd hr (by simp)
  · intro t ht
    obtain ⟨ts, ti⟩ := t
    cases ti with
    | read =>
        by_cases hv : isPathWithinVault ctx.fs ctx.cwd ctx.home ts
          ctx.vaultPath = true
        · exact Or.inl (by simp [checkToken, hv])
        · have hv2 : isPathWithinVault ctx.fs ctx.cwd ctx.home ts
              ctx.vaultPath = false := by
            revert hv
            cases isPathWithinVault ctx.fs ctx.cwd ctx.home ts ctx.vaultPath
            · intro _; rfl
            · intro h; exact absurd rfl h
          exact Or.inr (checkToken_read_export ctx ts hv2
            (hread (ts, .read) ht hv2))
    | write =>
        have hw := hwrite (ts, .write) ht rfl
        exact Or.inl (by simp [checkToken, hw])

/-- C3 witness: `cp /tmp/out.md ./notes/out.md` with `/tmp` configured
as the only export root is blocked citing "write-only". -/
theorem claim_C3_witness :
    ∃ msg, mediateBashPaths cpCtx "cp /tmp/out.md ./notes/out.md" =
        some msg ∧ strContains msg "write-only" = true :=
  claim_C3 cpCtx "cp /tmp/out.md ./notes/out.md" (by decide) (by decide)
    (by decide)

theorem approvalPatternMatches_self (toolName p : String) :
    approvalPatternMatches toolName p p = true := by
  rw [approvalPatternMatches]
  by_cases h : isFilePathTool toolName = true
  · rw [if_pos h, strStartsWith_iff]
  · rw [if_neg h]
    exact beq_self_eq_true p

/-- C7: approving an action and immediately querying with the same
input returns true for either scope; after a session reset, a
session-scoped approval is gone while a permanent (`always`) one still
holds. -/
theorem claim_C7 :
    (∀ (st : ApprovalStore) (toolName : String) (input : ToolInput)
        (scope : ApprovalScope),
      isActionApproved (approveAction st toolName input scope) toolName
        input = true) ∧
    (∀ (toolName : String) (input : ToolInput),
      isActionApproved
        (resetApprovalSession
          (approveAction emptyApprovalStore toolName input .session))
        toolName input = false) ∧
    (∀ (toolName : String) (input : ToolInput),
      isActionApproved
        (resetApprovalSession
          (approveAction emptyApprovalStore toolName input .always))
        toolName input = true) := by
  refine ⟨?_, ?_, ?_⟩
  · intro st toolName input scope
    rw [isActionApproved]
    refine List.any_eq_true.mpr
      ⟨⟨toolName, getActionPattern input, scope⟩, ?_, ?_⟩
    · cases scope with
      | session => simp [approveAction]
      | always => simp [approveAction]
    · rw [Bool.and_eq_true]
      exact ⟨beq_self_eq_true toolName, approvalPatternMatches_self toolName _⟩
  · intro toolName input
    rfl
  · intro toolName input
    rw [isActionApproved]
    refine List.any_eq_true.mpr
      ⟨⟨toolName, getActionPattern input, .always⟩, ?_, ?_⟩
    · simp [resetApprovalSession, approveAction, emptyApprovalStore]
    · rw [Bool.and_eq_true]
      exact ⟨beq_self_eq_true toolName, approvalPatternMatches_self toolName _⟩

theorem user_line_mem (budget : Nat) (history : List ChatMessage) :
    ∀ m ∈ history, m.role = .user →
      ("User: " ++ m.content) ∈ contextLines budget history := by
  intro m hm hrole
  rw [contextLines]
  refine List.mem_flatMap.mpr ⟨m, hm, ?_⟩
  rw [messageLines, hrole]
  exact List.mem_cons_self _ _

theorem assistant_line_mem (budget : Nat) (history : List ChatMessage) :
    ∀ m ∈ history, m.role = .assistant → m.content ≠ "" →
      ("Assistant: " ++ m.content) ∈ contextLines budget history := by
  intro m hm hrole hne
  rw [contextLines]
  refine List.mem_flatMap.mpr ⟨m, hm, ?_⟩
  rw [messageLines, hrole, if_neg hne]
  exact List.mem_append_left _ (List.mem_cons_self _ _)

/-- C8: a query failing with a session-expiry error clears the session
handle, is retried exactly once without a resume token and with the
prompt replaced by the context rebuilt from history (whose lines include
the prior turns' `User:`/`Assistant:` entries), and a failure of that
single retry is surfaced as the terminal error with the underlying
message — no second retry occurs. -/
theorem claim_C8 :
    ∀ (sdk : String → Option String → SDKOutcome)
      (sessionId : Option String) (prompt : String)
      (history : List ChatMessage) (budget : Nat) (msg : String),
      sdk prompt sessionId = .err msg →
      isSessionExpiredError msg = true →
      ((runQueryWithRecovery sdk sessionId prompt history budget).finalSessionId
          = none ∧
        (runQueryWithRecovery sdk sessionId prompt history budget).calls =
          [(prompt, sessionId),
            (buildContextFromHistory budget history, none)] ∧
        (∀ m ∈ history, m.role = .user →
          ("User: " ++ m.content) ∈ contextLines budget history) ∧
        (∀ m ∈ history, m.role = .assistant → m.content ≠ "" →
          ("Assistant: " ++ m.content) ∈ contextLines budget history) ∧
        (∀ m2, sdk (buildContextFromHistory budget history) none = .err m2 →
          (runQueryWithRecovery sdk sessionId prompt history budget).outcome
            = .err m2)) := by
  intro sdk sessionId prompt history budget msg herr hexp
  cases hretry : sdk (buildContextFromHistory budget history) none with
  | ok cs =>
      have hrun : runQueryWithRecovery sdk sessionId prompt history budget =
          { calls := [(prompt, sessionId),
              (buildContextFromHistory budget history, none)],
            finalSessionId := none, outcome := .ok cs } := by
        simp only [runQueryWithRecovery, herr, hexp, if_true, hretry]
      refine ⟨by rw [hrun], by rw [hrun],
        user_line_mem budget history, assistant_line_mem budget history, ?_⟩
      intro m2 hm2
      exact absurd hm2 (by simp)
  | err m2p =>
      have hrun : runQueryWithRecovery sdk sessionId prompt history budget =
          { calls := [(prompt, sessionId),
              (buildContextFromHistory budget history, none)],
            finalSessionId := none, outcome := .err m2p } := by
        simp only [runQueryWithRecovery, herr, hexp, if_true, hretry]
      refine ⟨by rw [hrun], by rw [hrun],
        user_line_mem budget history, assistant_line_mem budget history, ?_⟩
      intro m2 hm2
      injection hm2 with h2
      rw [hrun, h2]

/-- C8 witness: a runtime that rejects the resumed call with
`"Session expired"` — the session handle ends cleared and exactly one
retry is made, without a resume token and with the rebuilt context as
prompt. -/
theorem claim_C8_witness :
    (runQueryWithRecovery sdkExpiredOnResume (some "stale") "Follow up"
        historyW 100).finalSessionId = none ∧
    (runQueryWithRecovery sdkExpiredOnResume (some "stale") "Follow up"
        historyW 100).calls =
      [("Follow up", some "stale"),
        (buildContextFromHistory 100 historyW, none)] := by
  have h := claim_C8 sdkExpiredOnResume (some "stale") "Follow up" historyW
    100 "Session expired" (by decide) (by decide)
  exact ⟨h.1, h.2.1⟩

end Claudian
